import Mathlib

/-!
Verification development for the hazeljs reliable-UDP messaging layer.

The definitions below are a shallow embedding of the TypeScript sources:
* the `HazelBuffer` codec of `src/data.ts` (packed varints, strings,
  Hazel-message records, byte-level buffer writes with Node semantics);
* the `Connection` state machine of `src/unnamed/part_000` (second class in
  that file: reliable sends with retransmit intervals, selective-ack mask,
  ping ring, HELLO handshake, close handling);
* the `disconnect`/DISCONNECT-parsing variant of the `Connection` class found
  at the end of `src/server.ts`.

Node.js semantics that matter for faithfulness:
* `buf.readUInt8(off)` / `readUInt16BE(off)` throw `ERR_OUT_OF_RANGE` when the
  read would pass the end of the buffer; an omitted offset defaults to 0.
* `buf.write*` with an omitted offset also writes at offset 0 (there is no
  write cursor on Node buffers).
* `buf.slice(a, b)` clamps and never throws; `src.copy(dst, at)` truncates at
  the end of `dst`.
* JavaScript `<<` converts its operand to a 32-bit signed integer, so
  `x << 28` can produce a negative contribution.

Buffers are modelled as `List ℕ` of byte values; fallible reads return
`Except String _`.  Functions that the source writes as loops or as recursion
on `n / 128` are given a structural fuel argument so that they stay
executable by the kernel; the fuel is always chosen large enough, and
fuel-irrelevance lemmas below certify that the fuel is an artifact of the
encoding, not a semantic bound.
-/

/-- Byte buffers: a Node `Buffer` as its list of byte values. -/
abbrev Bytes := List ℕ

/-- JavaScript `ToInt32`: reduce mod 2^32 into the signed range. -/
def toInt32 (n : ℕ) : ℤ :=
  if n % 2 ^ 32 < 2 ^ 31 then ((n % 2 ^ 32 : ℕ) : ℤ) else ((n % 2 ^ 32 : ℕ) : ℤ) - 2 ^ 32

/-- JavaScript `x << s` on a non-negative `x`: shift count is taken mod 32 and
the result is a signed 32-bit integer. -/
def jsShl (x s : ℕ) : ℤ := toInt32 (x * 2 ^ (s % 32))

/-- Big-endian 16-bit read used after explicit length guards:
`256 * buf[off] + buf[off+1]`. -/
def getU16 (buf : Bytes) (off : ℕ) : ℕ := 256 * buf.getD off 0 + buf.getD (off + 1) 0

/-- Node `readUInt8(off)`: value at `off`, or `ERR_OUT_OF_RANGE`. -/
def readUInt8E (buf : Bytes) (off : ℕ) : Except String ℕ :=
  if off < buf.length then .ok (buf.getD off 0) else .error "ERR_OUT_OF_RANGE"

/-- Node `readUInt16BE(off)`: big-endian 16-bit value, or `ERR_OUT_OF_RANGE`. -/
def readUInt16E (buf : Bytes) (off : ℕ) : Except String ℕ :=
  if off + 2 ≤ buf.length then .ok (getU16 buf off) else .error "ERR_OUT_OF_RANGE"

/-- `HazelBuffer.readBoolean` (data.ts:54-56): `readUInt8(offset) === 1`. -/
def readBooleanE (buf : Bytes) (off : ℕ) : Except String Bool :=
  (readUInt8E buf off).map (fun b => b == 1)

/-- Loop body of `readPackedUInt32` (data.ts:111-125).  The source's do-while
reads bytes at `cursor`, accumulating `(byte & 0x7F) << shift` (a 32-bit
signed shift) into `res` and stepping `shift` by 7, and throws a `RangeError`
when `cursor` passes the end or `shift` exceeds 21.  The extra `fuel`
argument only makes the recursion structural; the guard stops the loop after
at most five reads, so any `fuel` with `22 ≤ 7 * fuel + shift` is enough (see
`readPackedGo_fuel`). -/
def readPackedGo (buf : Bytes) : ℕ → ℕ → ℕ → ℤ → Except String ℤ
  | 0, _, _, _ => .error "Could not decode varint"
  | fuel + 1, cursor, shift, res =>
    if buf.length ≤ cursor ∨ 21 < shift then .error "Could not decode varint"
    else
      let byte := buf.getD cursor 0
      let res := res + jsShl (byte % 128) shift
      if 128 ≤ byte then readPackedGo buf fuel (cursor + 1) (shift + 7) res
      else .ok res

/-- `readPackedUInt32(offset)` (data.ts:111-125). -/
def readPackedUInt32 (buf : Bytes) (offset : ℕ) : Except String ℤ :=
  readPackedGo buf 5 offset 0 0

/-- Loop of `writePackedUInt32` (data.ts:127-137), emitting the bytes written
at `offset`, `offset+1`, … together with the source's return value `cursor`
(the number of continuation bytes, one fewer than the bytes written).  For a
`uint32` input, `int & -0x80` is non-zero iff `128 ≤ int`, `(int & 0xff) |
0x80` is `int % 128 + 128`, and `int >>>= 7` is `int / 128`.  The `fuel`
argument makes the recursion structural; any `fuel ≥ int` is enough (see
`writePackedGo_fuel`). -/
def writePackedGo : ℕ → ℕ → Bytes × ℕ
  | 0, int => ([int], 0)
  | fuel + 1, int =>
    if 128 ≤ int then
      let r := writePackedGo fuel (int / 128)
      ((int % 128 + 128) :: r.1, r.2 + 1)
    else ([int], 0)

/-- `writePackedUInt32(int)` (data.ts:127-137): the bytes it writes and the
`cursor` value it returns. -/
def writePackedUInt32 (int : ℕ) : Bytes × ℕ := writePackedGo int int

/-- `PACKED_INT_LENGTH` (data.ts:30-35). -/
def PACKED_INT_LENGTH : List ℕ := [2 ^ 7, 2 ^ 14, 2 ^ 21, 2 ^ 28]

/-- `HazelBuffer.getPackedUInt32Size` (data.ts:199-201):
`PACKED_INT_LENGTH.findIndex((b) => b > int) + 1 || PACKED_INT_LENGTH.length`.
A found index `i` gives `i + 1` (truthy); a missed search gives `-1 + 1 = 0`
(falsy), so the `||` yields `PACKED_INT_LENGTH.length = 4`. -/
def getPackedUInt32Size (int : ℕ) : ℕ :=
  match PACKED_INT_LENGTH.findIdx? (fun b => decide (int < b)) with
  | some i => i + 1
  | none => PACKED_INT_LENGTH.length

/-- `readHazelMessage(offset)` (data.ts:163-168): 16-bit big-endian length at
`offset`, tag byte at `offset+2`, then `slice(offset+3, offset+3+length)`
(which clamps).  Returns `(tag, payload)` or the out-of-range error of the
two fixed-size reads. -/
def readHazelMessage (buf : Bytes) (offset : ℕ) : Except String (ℕ × Bytes) := do
  let length ← readUInt16E buf offset
  let tag ← readUInt8E buf (offset + 2)
  .ok (tag, (buf.drop (offset + 3)).take length)

/-- `readString(offset)` (data.ts:139-144): packed length, then
`getPackedUInt32Size(len)` bytes are skipped and `len` bytes of UTF-8 are
sliced out (clamping).  The string is kept as its byte list. -/
def readString (buf : Bytes) (offset : ℕ) : Except String Bytes := do
  let len ← readPackedUInt32 buf offset
  let read := getPackedUInt32Size len.toNat
  .ok ((buf.drop (offset + read)).take len.toNat)

/- Fuel-irrelevance lemmas: the fuel arguments are artifacts of the
embedding, not semantic bounds. -/

/-- One step of fuel never matters for `readPackedGo` once
`22 ≤ 7 * fuel + shift`: the `shift > 21` guard stops the loop first. -/
theorem readPackedGo_fuel (buf : Bytes) :
    ∀ fuel cursor shift res, 22 ≤ 7 * fuel + shift →
      readPackedGo buf fuel cursor shift res = readPackedGo buf (fuel + 1) cursor shift res := by
  intro fuel
  induction fuel with
  | zero =>
    intro cursor shift res h
    simp only [readPackedGo]
    have hs : 21 < shift := by omega
    simp [hs]
  | succ f ih =>
    intro cursor shift res h
    simp only [readPackedGo]
    split
    · rfl
    · by_cases hb : 128 ≤ buf.getD cursor 0
      · rw [if_pos hb, if_pos hb]
        exact ih (cursor + 1) (shift + 7) _ (by omega)
      · rw [if_neg hb, if_neg hb]

/-- Fuel irrelevance for `writePackedGo`: any `fuel ≥ int` computes the loop. -/
theorem writePackedGo_fuel :
    ∀ fuel₁ fuel₂ int, int ≤ fuel₁ → int ≤ fuel₂ →
      writePackedGo fuel₁ int = writePackedGo fuel₂ int := by
  intro fuel₁
  induction fuel₁ with
  | zero =>
    intro fuel₂ int h1 _
    have : int = 0 := by omega
    subst this
    cases fuel₂ with
    | zero => rfl
    | succ f => simp [writePackedGo]
  | succ f ih =>
    intro fuel₂ int h1 h2
    cases fuel₂ with
    | zero =>
      have : int = 0 := by omega
      subst this
      simp [writePackedGo]
    | succ f₂ =>
      simp only [writePackedGo]
      by_cases hint : 128 ≤ int
      · have hd : int / 128 ≤ f := by omega
        have hd₂ : int / 128 ≤ f₂ := by omega
        rw [ih f₂ (int / 128) hd hd₂]
      · simp [hint]

/-- Unfolding equation for `writePackedUInt32`, matching the source loop. -/
theorem writePackedUInt32_eq (n : ℕ) :
    writePackedUInt32 n =
      if 128 ≤ n then
        ((n % 128 + 128) :: (writePackedUInt32 (n / 128)).1, (writePackedUInt32 (n / 128)).2 + 1)
      else ([n], 0) := by
  unfold writePackedUInt32
  by_cases h : 128 ≤ n
  · obtain ⟨m, rfl⟩ : ∃ m, n = m + 1 := ⟨n - 1, by omega⟩
    rw [if_pos h]
    simp only [writePackedGo, h, if_pos]
    rw [writePackedGo_fuel m ((m + 1) / 128) ((m + 1) / 128) (by omega) (le_refl _)]
  · rw [if_neg h]
    cases n with
    | zero => rfl
    | succ m => simp [writePackedGo, h]

/-- `toInt32` is the identity below `2^31`. -/
theorem toInt32_of_lt {m : ℕ} (h : m < 2 ^ 31) : toInt32 m = (m : ℤ) := by
  unfold toInt32
  have hm : m % 2 ^ 32 = m := Nat.mod_eq_of_lt (by omega)
  rw [hm, if_pos h]

/-- In the range the reader's guard allows, the JavaScript shift is exact. -/
theorem jsShl_eq {x s : ℕ} (hx : x < 128) (hs : s ≤ 21) :
    jsShl x s = (x : ℤ) * 2 ^ s := by
  unfold jsShl
  have h32 : s % 32 = s := Nat.mod_eq_of_lt (by omega)
  rw [h32, toInt32_of_lt]
  · push_cast
    ring
  · calc x * 2 ^ s ≤ 127 * 2 ^ 21 :=
          Nat.mul_le_mul (by omega) (Nat.pow_le_pow_right (by omega) hs)
    _ < 2 ^ 31 := by norm_num

/-- Reading back the bytes `writePackedUInt32` emitted, starting at any cursor
`c` whose suffix is those bytes: the value accumulates as `n * 2 ^ shift`.
This is the do-while of data.ts:117-122 run against the loop of
data.ts:130-135. -/
theorem readPackedGo_writePacked (n : ℕ) :
    ∀ s res buf c rest fuel, 7 ∣ s → s ≤ 21 → n * 2 ^ s < 2 ^ 28 → 22 ≤ 7 * fuel + s →
      List.drop c buf = (writePackedUInt32 n).1 ++ rest →
      readPackedGo buf fuel c s res = .ok (res + (n : ℤ) * 2 ^ s) := by
  induction n using Nat.strong_induction_on with
  | _ n ih =>
    intro s res buf c rest fuel h7 hs hn hfuel hdrop
    obtain ⟨f, rfl⟩ : ∃ f, fuel = f + 1 := ⟨fuel - 1, by omega⟩
    by_cases h128 : 128 ≤ n
    · rw [writePackedUInt32_eq, if_pos h128] at hdrop
      have hlen : c < buf.length := by
        have := congrArg List.length hdrop
        simp at this
        omega
      have hget : buf.getD c 0 = n % 128 + 128 := by
        rw [List.getD_eq_getElem?_getD]
        have h0 : buf[c]? = (List.drop c buf)[0]? := by
          rw [List.getElem?_drop]
          norm_num
        rw [h0, hdrop]
        simp
      have hbyte : 128 ≤ buf.getD c 0 := by omega
      have hslt : s < 21 := by
        have h1 : 2 ^ (7 + s) ≤ n * 2 ^ s := by
          rw [pow_add]
          exact Nat.mul_le_mul_right _ h128
        have h2 : 2 ^ (7 + s) < 2 ^ 28 := lt_of_le_of_lt h1 hn
        have h3 : 7 + s < 28 := (Nat.pow_lt_pow_iff_right (by omega)).mp h2
        omega
      have hs7 : s + 7 ≤ 21 := by omega
      have hdrop' : List.drop (c + 1) buf = (writePackedUInt32 (n / 128)).1 ++ rest := by
        rw [← List.tail_drop, hdrop]
        rfl
      have hn' : n / 128 * 2 ^ (s + 7) < 2 ^ 28 := by
        calc n / 128 * 2 ^ (s + 7) = n / 128 * 128 * 2 ^ s := by
              rw [pow_add]
              norm_num
              ring
        _ ≤ n * 2 ^ s := Nat.mul_le_mul_right _ (Nat.div_mul_le_self n 128)
        _ < 2 ^ 28 := hn
      simp only [readPackedGo]
      rw [if_neg (by omega)]
      rw [hget]
      have hmod : (n % 128 + 128) % 128 = n % 128 := by omega
      rw [hmod, if_pos (by omega : 128 ≤ n % 128 + 128)]
      rw [ih (n / 128) (by omega) (s + 7) _ buf (c + 1) rest f ⟨s / 7 + 1, by omega⟩ hs7 hn'
        (by omega) hdrop']
      congr 1
      rw [jsShl_eq (by omega) hs]
      have hsplit : (n : ℤ) = (n % 128 : ℕ) + (n / 128 : ℕ) * 128 := by
        push_cast
        omega
      rw [hsplit]
      push_cast
      ring
    · rw [writePackedUInt32_eq, if_neg h128] at hdrop
      have hlen : c < buf.length := by
        have := congrArg List.length hdrop
        simp at this
        omega
      have hget : buf.getD c 0 = n := by
        rw [List.getD_eq_getElem?_getD]
        have h0 : buf[c]? = (List.drop c buf)[0]? := by
          rw [List.getElem?_drop]
          norm_num
        rw [h0, hdrop]
        simp
      simp only [readPackedGo]
      rw [if_neg (by omega), hget]
      rw [if_neg (by omega : ¬ 128 ≤ n)]
      have hmod : n % 128 = n := by omega
      rw [hmod, jsShl_eq (by omega) hs]

/-- Closed form of `getPackedUInt32Size`: note the source returns 4 for every
`int ≥ 2^21`, including inputs whose encoding takes 5 bytes. -/
theorem getPackedUInt32Size_eq (n : ℕ) :
    getPackedUInt32Size n =
      if n < 2 ^ 7 then 1 else if n < 2 ^ 14 then 2 else if n < 2 ^ 21 then 3 else 4 := by
  unfold getPackedUInt32Size PACKED_INT_LENGTH
  simp only [List.findIdx?_cons, List.findIdx?_nil, decide_eq_true_eq, Option.map_none,
    Option.map_some]
  split_ifs <;> simp_all

/-- A one-byte encoding. -/
theorem writePacked_length1 (n : ℕ) (h : n < 2 ^ 7) : (writePackedUInt32 n).1.length = 1 := by
  rw [writePackedUInt32_eq, if_neg (by omega)]
  simp

/-- A two-byte encoding. -/
theorem writePacked_length2 (n : ℕ) (h1 : 2 ^ 7 ≤ n) (h2 : n < 2 ^ 14) :
    (writePackedUInt32 n).1.length = 2 := by
  rw [writePackedUInt32_eq, if_pos (by omega)]
  simp [writePacked_length1 (n / 128) (by omega)]

/-- A three-byte encoding. -/
theorem writePacked_length3 (n : ℕ) (h1 : 2 ^ 14 ≤ n) (h2 : n < 2 ^ 21) :
    (writePackedUInt32 n).1.length = 3 := by
  rw [writePackedUInt32_eq, if_pos (by omega)]
  simp [writePacked_length2 (n / 128) (by omega) (by omega)]

/-- A four-byte encoding. -/
theorem writePacked_length4 (n : ℕ) (h1 : 2 ^ 21 ≤ n) (h2 : n < 2 ^ 28) :
    (writePackedUInt32 n).1.length = 4 := by
  rw [writePackedUInt32_eq, if_pos (by omega)]
  simp [writePacked_length3 (n / 128) (by omega) (by omega)]

/-- C4 (amended).  For every `n < 2^28`, reading back a packed unsigned
integer written by `writePackedUInt32` yields `n`, and `getPackedUInt32Size n`
equals the number of bytes written, which lies in `[1, 5]` (in fact in
`[1, 4]`).  For `n ≥ 2^28` the claim fails: the writer emits 5 bytes but the
reader's `shift > 21` guard rejects the fifth byte with a `RangeError`, and
`getPackedUInt32Size` returns 4 (see `packed_roundtrip_fails_cex`). -/
theorem packed_roundtrip_below_2pow28 (n : ℕ) (h : n < 2 ^ 28) :
    readPackedUInt32 (writePackedUInt32 n).1 0 = .ok (n : ℤ) ∧
    getPackedUInt32Size n = (writePackedUInt32 n).1.length ∧
    1 ≤ (writePackedUInt32 n).1.length ∧ (writePackedUInt32 n).1.length ≤ 5 := by
  refine ⟨?_, ?_, ?_, ?_⟩
  · unfold readPackedUInt32
    have := readPackedGo_writePacked n 0 0 (writePackedUInt32 n).1 0 [] 5
      ⟨0, rfl⟩ (by omega) (by omega) (by omega) (by simp)
    rw [this]
    norm_num
  · rw [getPackedUInt32Size_eq]
    by_cases h1 : n < 2 ^ 7
    · rw [writePacked_length1 n h1, if_pos h1]
    · by_cases h2 : n < 2 ^ 14
      · rw [writePacked_length2 n (by omega) h2, if_neg h1, if_pos h2]
      · by_cases h3 : n < 2 ^ 21
        · rw [writePacked_length3 n (by omega) h3, if_neg h1, if_neg h2, if_pos h3]
        · rw [writePacked_length4 n (by omega) h, if_neg h1, if_neg h2, if_neg h3]
  · by_cases h1 : n < 2 ^ 7
    · rw [writePacked_length1 n h1]
    · by_cases h2 : n < 2 ^ 14
      · rw [writePacked_length2 n (by omega) h2]
        omega
      · by_cases h3 : n < 2 ^ 21
        · rw [writePacked_length3 n (by omega) h3]
          omega
        · rw [writePacked_length4 n (by omega) h]
          omega
  · by_cases h1 : n < 2 ^ 7
    · rw [writePacked_length1 n h1]
      omega
    · by_cases h2 : n < 2 ^ 14
      · rw [writePacked_length2 n (by omega) h2]
        omega
      · by_cases h3 : n < 2 ^ 21
        · rw [writePacked_length3 n (by omega) h3]
          omega
        · rw [writePacked_length4 n (by omega) h]
          omega

/-- Witness for `packed_roundtrip_below_2pow28` at `n = 300`. -/
theorem packed_roundtrip_below_2pow28_witness :
    300 < 2 ^ 28 ∧
    (readPackedUInt32 (writePackedUInt32 300).1 0 = .ok (300 : ℤ) ∧
     getPackedUInt32Size 300 = (writePackedUInt32 300).1.length ∧
     1 ≤ (writePackedUInt32 300).1.length ∧ (writePackedUInt32 300).1.length ≤ 5) :=
  ⟨by norm_num, packed_roundtrip_below_2pow28 300 (by norm_num)⟩

/-- Counterexample to C4 as stated: at `n = 2^28 = 268435456` (a valid
`uint32`), the writer emits the 5-byte encoding `[128, 128, 128, 128, 16]`
but `readPackedUInt32` raises `RangeError('Could not decode varint')`
(`shift` reaches 28 > 21 before the terminating byte), and
`getPackedUInt32Size` returns 4 ≠ 5. -/
theorem packed_roundtrip_fails_cex :
    readPackedUInt32 (writePackedUInt32 268435456).1 0 = .error "Could not decode varint" ∧
    (writePackedUInt32 268435456).1.length = 5 ∧
    getPackedUInt32Size 268435456 = 4 := ⟨rfl, rfl, rfl⟩

/-- `HazelBuffer.alloc(size)` (data.ts:203-205): a zero-filled buffer. -/
def hazelAlloc (size : ℕ) : Bytes := List.replicate size 0

/-- Node `writeUInt8(v, off)` on a buffer: set one byte.  (Node validates the
range of `v`; all values written below are bytes already, the `% 256` keeps
the model total.)  Out-of-bounds writes do not occur at the call sites
modelled here. -/
def bufSet (buf : Bytes) (off v : ℕ) : Bytes := buf.set off (v % 256)

/-- Node `writeUInt16BE(v, off)`: big-endian, high byte first. -/
def bufSetU16 (buf : Bytes) (v off : ℕ) : Bytes := bufSet (bufSet buf off (v / 256)) (off + 1) v

/-- Node `src.copy(target, tStart)`: copies `src` into `target` starting at
`tStart`, silently truncating at the end of `target`. -/
def bufCopy (src target : Bytes) (tStart : ℕ) : Bytes :=
  target.take tStart ++ src.take (target.length - tStart) ++ target.drop (tStart + src.length)

/-- `writePackedUInt32(int, offset)` acting on a buffer (data.ts:127-137): the
loop writes the encoded bytes at consecutive offsets and returns `cursor`
(one fewer than the number of bytes written). -/
def writePackedUInt32At (buf : Bytes) (int off : ℕ) : Bytes × ℕ :=
  (bufCopy (writePackedUInt32 int).1 buf off, (writePackedUInt32 int).2)

/-- `writeString(str, offset)` (data.ts:146-151).  `len` is the RETURN VALUE
of `writePackedUInt32`, i.e. one fewer than the bytes the length prefix
occupies, so the subsequent copy of the UTF-8 bytes starts one byte too
early and overwrites the last byte of the length prefix. -/
def writeStringAt (buf : Bytes) (s : Bytes) (off : ℕ) : Bytes × ℕ :=
  (bufCopy s (writePackedUInt32At buf s.length off).1 (off + (writePackedUInt32At buf s.length off).2),
   (writePackedUInt32At buf s.length off).2 + s.length)

/-- `writeHazelMessage(message, offset)` (data.ts:170-176): 16-bit length,
tag byte, then the payload; an omitted offset is `offset ?? 0 = 0`. -/
def writeHazelMessageAt (buf : Bytes) (tag : ℕ) (data : Bytes) (off : ℕ) : Bytes × ℕ :=
  (bufCopy data (bufSet (bufSetU16 buf data.length off) (off + 2) tag) (off + 3),
   3 + data.length)

/-- Truthiness of the optional `message` string in `disconnect`
(server.ts `Connection.disconnect`): `undefined` and the empty string are
falsy. -/
def strTruthy : Option Bytes → Bool
  | none => false
  | some s => !s.isEmpty

/-- `Connection.disconnect(forced, reason?, message?)` of the `Connection`
class at the end of server.ts.  Returns the datagram passed to the socket
and whether the local close event was emitted.  Every `writeByte` /
`writeBoolean` / `writeHazelMessage` call without an explicit offset writes
at offset 0 (Node default), exactly as the source does; only the
graceless/no-reason branch emits `close`. -/
def disconnectPacket (forced : Bool) (reason : Option ℕ) (message : Option Bytes) : Bytes × Bool :=
  if !forced && reason.isSome then
    -- reasonLength = 1 + (message ? getPackedUInt32Size(message.length) + message.length : 0)
    let msg := message.getD []
    let reasonLength := 1 + (if strTruthy message then getPackedUInt32Size msg.length + msg.length else 0)
    -- reasonBuf.writeByte(reason); if (message) reasonBuf.writeString(message, 1)
    let reasonBuf := bufSet (hazelAlloc reasonLength) 0 (reason.getD 0)
    let reasonBuf := if strTruthy message then (writeStringAt reasonBuf msg 1).1 else reasonBuf
    -- buf.writeByte(DISCONNECT); buf.writeBoolean(!forced); buf.writeHazelMessage({tag: 0, ...})
    let buf := hazelAlloc (5 + reasonLength)
    let buf := bufSet buf 0 9
    let buf := bufSet buf 0 1
    let buf := (writeHazelMessageAt buf 0 reasonBuf 0).1
    -- return this.sendRaw(buf)  -- NOTE: no close event on this path
    (buf, false)
  else
    -- buf.writeByte(DISCONNECT); buf.writeBoolean(true); emit('close', ...); sendRaw(buf)
    let buf := hazelAlloc 2
    let buf := bufSet buf 0 9
    let buf := bufSet buf 0 1
    (buf, true)

/-- The close event payload parsed from an inbound DISCONNECT. -/
structure CloseEvt where
  forced : Bool
  reason : Option ℕ
  message : Option Bytes
  deriving DecidableEq

/-- The `PacketType.DISCONNECT` case of `handleMessage` in the server.ts
`Connection` class: a 1-byte datagram closes with `forced = true`; otherwise
`readHazelMessage(2)` is parsed unconditionally, then the graceful flag at
offset 1, the reason byte at the start of the record payload and (if the
payload is longer than one byte) a length-prefixed string message. -/
def handleDisconnect (msg : Bytes) : Except String CloseEvt :=
  if msg.length = 1 then .ok ⟨true, none, none⟩
  else do
    let message ← readHazelMessage msg 2
    if 1 < message.2.length then
      let g ← readBooleanE msg 1
      let b ← readUInt8E message.2 0
      let s ← readString message.2 1
      .ok ⟨!g, some b, some s⟩
    else
      let g ← readBooleanE msg 1
      let b ← readUInt8E message.2 0
      .ok ⟨!g, some b, none⟩

/-- C5 (code bug, evaluation at the failing input).
`disconnect(forced = false, reason = 4, message = "bye")` does NOT produce
`[0x09, 0x01, record[0x04, 0x03, 'b', 'y', 'e']]`.  The `writeBoolean(!forced)`
and `writeHazelMessage(...)` calls pass no offset and therefore write at
offset 0, clobbering the DISCONNECT type byte and the flag, and `writeString`
starts the UTF-8 copy one byte early (the `writePackedUInt32` return value is
the byte count minus one), clobbering the length prefix.  The datagram
actually sent is `[0x00, 0x05, 0x00, 0x04, 'b', 'y', 'e', 0x00, 0x00, 0x00]`
and no close event is emitted on this path. -/
theorem disconnect_graceful_bye_eval :
    disconnectPacket false (some 4) (some [98, 121, 101]) =
      ([0, 5, 0, 4, 98, 121, 101, 0, 0, 0], false) := rfl

/-- Counterexample to C6: `disconnect(forced = false, reason = 4,
message = "bye")` emits no local close event — the graceful-with-reason
branch returns after `sendRaw` without reaching `emit('close', ...)`. -/
theorem disconnect_no_close_cex :
    (disconnectPacket false (some 4) (some [98, 121, 101])).2 = false := rfl

/-- C6 (amended): `disconnect` emits the local close event iff `forced` is
true or no reason is given; the graceful-with-reason branch (not forced,
reason present) sends the reason packet and returns without emitting close. -/
theorem disconnect_close_iff (forced : Bool) (reason : Option ℕ) (message : Option Bytes) :
    (disconnectPacket forced reason message).2 = (forced || reason.isNone) := by
  cases forced <;> cases reason <;> simp [disconnectPacket]

/-- C10 (code bug, evaluation at the failing input).  A 2-byte DISCONNECT
`[0x09, 0x01]` — the minimal graceful disconnect, exactly what the other
`Connection` variants in this repository send — makes `readHazelMessage(2)`
read a 16-bit length at offsets 2..3 of a 2-byte datagram, which is out of
bounds: the handler throws instead of handling the packet. -/
theorem handleDisconnect_minimal_oob :
    handleDisconnect [9, 1] = .error "ERR_OUT_OF_RANGE" := rfl

/-- `getNonce` (src/unnamed/part_000:436-439, identically in every variant):
`this.nonce = (this.nonce + 1) % 65535; return this.nonce`. -/
def getNonce (nonce : ℕ) : ℕ := (nonce + 1) % 65535

/-- The nonce values of a connection over time: `nonceSeq k` is the stored
counter after `k` generations, starting from the initial field value 0. -/
def nonceSeq : ℕ → ℕ
  | 0 => 0
  | k + 1 => getNonce (nonceSeq k)

/-- The counter is congruence mod 65535 of the generation count. -/
theorem nonceSeq_eq (k : ℕ) : nonceSeq k = k % 65535 := by
  induction k with
  | zero => rfl
  | succ m ih =>
    show getNonce (nonceSeq m) = (m + 1) % 65535
    rw [ih]
    unfold getNonce
    omega

/-- C8: starting from counter 0, every generation returns
`(previous + 1) % 65535`, the value 65535 is never produced, and while no
wrap has happened yet (`k + 1 ≤ 65534`) successive nonces are strictly
increasing. -/
theorem getNonce_mod_and_skip (k : ℕ) :
    nonceSeq (k + 1) = (nonceSeq k + 1) % 65535 ∧
    nonceSeq (k + 1) ≠ 65535 ∧
    (k + 1 ≤ 65534 → nonceSeq k < nonceSeq (k + 1)) := by
  refine ⟨rfl, ?_, ?_⟩
  · rw [nonceSeq_eq]
    omega
  · intro h
    rw [nonceSeq_eq, nonceSeq_eq]
    omega

/-- Witness for `getNonce_mod_and_skip` at `k = 0`: the first nonce is 1. -/
theorem getNonce_mod_and_skip_witness :
    nonceSeq 1 = (nonceSeq 0 + 1) % 65535 ∧ nonceSeq 1 ≠ 65535 ∧
    nonceSeq 0 < nonceSeq 1 :=
  ⟨(getNonce_mod_and_skip 0).1, (getNonce_mod_and_skip 0).2.1,
   (getNonce_mod_and_skip 0).2.2 (by norm_num)⟩

/-- The five-sample RTT ring of a connection (`lastPings`, initialised to
`[0, 0, 0, 0, 0]`). -/
structure PingRing where
  lastPings : List ℚ
  deriving DecidableEq

/-- Initial field value `lastPings = [ 0, 0, 0, 0, 0 ]`. -/
def pingInit : PingRing := ⟨[0, 0, 0, 0, 0]⟩

/-- The pending-ack completion of `sendPing` when its ACK arrives:
`lastPings.shift(); lastPings.push(Date.now() - pingTime)` with
`rtt = Date.now() - pingTime`. -/
def ackPing (r : PingRing) (rtt : ℚ) : PingRing := ⟨r.lastPings.tail ++ [rtt]⟩

/-- The `ping` getter: `lastPings.reduce((a, b) => a + b, 0) / 5`. -/
def pingValue (r : PingRing) : ℚ := r.lastPings.foldl (· + ·) 0 / 5

/-- The ring keeps length 5 under any sequence of acknowledged pings. -/
theorem pingRing_length (rtts : List ℚ) :
    (List.foldl ackPing pingInit rtts).lastPings.length = 5 := by
  suffices h : ∀ l r, (r : PingRing).lastPings.length = 5 →
      (List.foldl ackPing r l).lastPings.length = 5 from h rtts pingInit rfl
  intro l
  induction l with
  | nil => intro r h; exact h
  | cons x xs ih =>
    intro r h
    apply ih
    show (r.lastPings.tail ++ [x]).length = 5
    simp [List.length_tail]
    omega

/-- C9: after any sequence of acknowledged pings the reported `ping` equals
the arithmetic mean of the five entries of the RTT ring (which always holds
exactly 5 samples, initialised to zero); in particular after five
acknowledged pings of 10/20/30/40/50 ms the reported ping is 30. -/
theorem ping_is_mean_of_ring (rtts : List ℚ) :
    (List.foldl ackPing pingInit rtts).lastPings.length = 5 ∧
    pingValue (List.foldl ackPing pingInit rtts) =
      (List.foldl ackPing pingInit rtts).lastPings.foldl (· + ·) 0 /
        ((List.foldl ackPing pingInit rtts).lastPings.length : ℚ) ∧
    pingValue (List.foldl ackPing pingInit [10, 20, 30, 40, 50]) = 30 := by
  refine ⟨pingRing_length rtts, ?_, ?_⟩
  · rw [pingRing_length rtts]
    norm_num [pingValue]
  · norm_num [pingInit, ackPing, pingValue, List.foldl]

/-- Value stored in the `pendingAck` map of the part_000 `Connection`
(second class): the completion closure registered for an outbound nonce —
either the resolver of reliable send number `idx`, or the ping completion
capturing the send time. -/
inductive AckVal where
  | rel (idx : ℕ)
  | ping (sentAt : ℕ)
  deriving DecidableEq

/-- Status of one `sendReliable` invocation's promise. -/
inductive RelStatus where
  | pending
  | resolved
  | rejected
  deriving DecidableEq

/-- One `sendReliable` invocation: its nonce, the encoded datagram its
retransmit interval re-sends, the `attempts` counter of that interval, and
the promise status. -/
structure RelEntry where
  nonce : ℕ
  buf : Bytes
  attempts : ℕ
  status : RelStatus
  deriving DecidableEq

/-- JavaScript `Map` as an insertion-ordered association list. -/
def mapHas (m : List (ℕ × AckVal)) (k : ℕ) : Bool := m.any (fun p => p.1 == k)

/-- `Map.has` under the JavaScript number subtraction `nonce - i`, which can
be negative (a key that is never present). -/
def mapHasZ (m : List (ℕ × AckVal)) (k : ℤ) : Bool := m.any (fun p => (p.1 : ℤ) == k)

/-- `Map.set`: replace in place if the key exists, else append. -/
def mapSet (m : List (ℕ × AckVal)) (k : ℕ) (v : AckVal) : List (ℕ × AckVal) :=
  if mapHas m k then m.map (fun p => if p.1 == k then (k, v) else p) else m ++ [(k, v)]

/-- `Map.get`. -/
def mapGet (m : List (ℕ × AckVal)) (k : ℕ) : Option AckVal :=
  (m.find? (fun p => p.1 == k)).map (fun p => p.2)

/-- `Map.delete`. -/
def mapDelete (m : List (ℕ × AckVal)) (k : ℕ) : List (ℕ × AckVal) :=
  m.filter (fun p => !(p.1 == k))

/-- The selective-ack mask loop of `sendAck`
(src/unnamed/part_000:338-344): for `i` in 1..8, bit `i-1` is set iff
`pendingAck.has(nonce - i)` is false.  Here `j = i - 1` ranges over 0..7. -/
def ackMask (has : ℤ → Bool) (nonce : ℤ) : ℕ :=
  (List.range 8).foldl
    (fun (pending j : ℕ) =>
      if has (nonce - ((j : ℤ) + 1)) then pending else pending ||| (1 <<< j)) 0

/-- State of one part_000 `Connection` (second class in the file), together
with the observable history this verification tracks: datagrams passed to
the socket (`outbox`), counts of emitted `close` and `hello` events, emitted
message records, every `sendReliable` promise (`entries`), whether the
`once('close')` cleanup has run (`latch`) and how many times it ran
(`cleanups`), and a clock (`time`) for `Date.now()`. -/
structure MState where
  pendingAck : List (ℕ × AckVal)
  pendingPings : ℕ
  lastPings : List ℤ
  seenHello : Bool
  nonce : ℕ
  latch : Bool
  cleanups : ℕ
  closeEmits : ℕ
  helloEmits : ℕ
  msgEmits : List (ℕ × Bytes)
  outbox : List Bytes
  entries : List RelEntry
  time : ℕ
  deriving DecidableEq

/-- `emit('close')`: every emission is counted; the `once('close')` listener
(clear the ping interval, `pendingAck.clear()`) runs only on the first one. -/
def emitClose (st : MState) : MState :=
  let st1 := { st with closeEmits := st.closeEmits + 1 }
  if st1.latch then st1
  else { st1 with latch := true, cleanups := st1.cleanups + 1, pendingAck := [] }

/-- `disconnect(force)` (part_000 second class): emit `close`, then send the
2-byte packet.  `writeByte(DISCONNECT)` and `writeBoolean(!force)` both write
at offset 0 (no offset passed), so the datagram is `[!force, 0]`. -/
def mDisconnect (st : MState) (force : Bool) : MState :=
  let st1 := emitClose st
  { st1 with outbox := st1.outbox ++ [[if force then 0 else 1, 0]] }

/-- `sendAck(nonce)` (part_000:338-351): computes the mask against the
CURRENT `pendingAck` map (outbound nonces awaiting acknowledgement — the
code never records inbound nonces anywhere) and sends
`[0x0A, nonce_hi, nonce_lo, mask]`. -/
def sendAckTo (st : MState) (nonce : ℕ) : MState :=
  { st with outbox :=
      st.outbox ++ [[10, nonce / 256, nonce % 256, ackMask (fun z => mapHasZ st.pendingAck z) (nonce : ℤ)]] }

/-- The record sequence `writeHazelMessage` produces at consecutive cursors
inside `sendNormal`/`sendReliable`: 16-bit length, tag, payload per record. -/
def encodeRecords : List (ℕ × Bytes) → Bytes
  | [] => []
  | (tag, data) :: rest =>
    [data.length / 256 % 256, data.length % 256, tag % 256] ++ data ++ encodeRecords rest

/-- Replace-in-place at index `idx` of the reliable-send table. -/
def updEntry : List RelEntry → ℕ → (RelEntry → RelEntry) → List RelEntry
  | [], _, _ => []
  | e :: es, 0, f => f e :: es
  | e :: es, idx + 1, f => e :: updEntry es idx f

/-- `sendReliable(...messages)` (part_000:281-312): allocate the nonce, build
`[0x01, nonce_hi, nonce_lo, records...]`, send immediately, register the
promise and set the pendingAck resolver. -/
def mSendReliable (st : MState) (msgs : List (ℕ × Bytes)) : MState :=
  let nonce := getNonce st.nonce
  let buf := [1, nonce / 256, nonce % 256] ++ encodeRecords msgs
  { st with
      nonce := nonce,
      outbox := st.outbox ++ [buf],
      entries := st.entries ++ [⟨nonce, buf, 0, .pending⟩],
      pendingAck := mapSet st.pendingAck nonce (.rel st.entries.length) }

/-- One firing of the 300 ms retransmit interval of reliable send `idx`
(part_000:287-304).  The interval only exists while the promise is pending
(resolving or rejecting clears it; the close cleanup does NOT).  At
`attempts === 10` it rejects the promise and force-disconnects; otherwise it
re-sends the identical datagram and increments `attempts`. -/
def tickRelFn (st : MState) (idx : ℕ) : MState :=
  match st.entries[idx]? with
  | none => st
  | some e =>
    if e.status = .pending then
      if e.attempts = 10 then
        mDisconnect { st with entries := updEntry st.entries idx (fun x => { x with status := .rejected }) } true
      else
        { st with
            outbox := st.outbox ++ [e.buf],
            entries := updEntry st.entries idx (fun x => { x with attempts := x.attempts + 1 }) }
    else st

/-- One firing of the 1500 ms ping interval (part_000:353-371); the interval
is cleared by the first close (`latch`).  At 10 outstanding pings it
force-disconnects; otherwise it registers the ping completion and sends
`[0x0C, nonce_hi, nonce_lo]`. -/
def tickPingFn (st : MState) : MState :=
  if st.latch then st
  else if 10 ≤ st.pendingPings then mDisconnect st true
  else
    let nonce := getNonce st.nonce
    { st with
        nonce := nonce,
        pendingAck := mapSet st.pendingAck nonce (.ping st.time),
        pendingPings := st.pendingPings + 1,
        outbox := st.outbox ++ [[12, nonce / 256, nonce % 256]] }

/-- The ACKNOWLEDGEMENT case of `handleMessage` (part_000:385-393): if the
id is in `pendingAck`, run the stored completion (resolve the reliable
promise, or record the ping RTT) and delete the entry. -/
def handleAckM (st : MState) (id : ℕ) : MState :=
  match mapGet st.pendingAck id with
  | none => st
  | some (.rel idx) =>
    { st with
        entries := updEntry st.entries idx (fun x => { x with status := .resolved }),
        pendingAck := mapDelete st.pendingAck id }
  | some (.ping t0) =>
    { st with
        pendingPings := st.pendingPings - 1,
        lastPings := st.lastPings.tail ++ [(st.time : ℤ) - (t0 : ℤ)],
        pendingAck := mapDelete st.pendingAck id }

/-- Fuel-structural version of the record loop of `handleMessagePacket`
(part_000:429-433): while `cursor < msg.length`, `readHazelMessage(cursor)`
(whose out-of-bounds reads throw) and advance by `3 + data.length`.  Any
fuel covering the remaining bytes computes the loop (`parseRecordsGo_fuel`). -/
def parseRecordsGo (msg : Bytes) : ℕ → ℕ → Option (List (ℕ × Bytes))
  | 0, cursor => if cursor < msg.length then none else some []
  | fuel + 1, cursor =>
    if cursor < msg.length then
      match readHazelMessage msg cursor with
      | .error _ => none
      | .ok (tag, data) =>
        (parseRecordsGo msg fuel (cursor + 3 + data.length)).map (fun rs => (tag, data) :: rs)
    else some []

/-- The record loop, with enough fuel for the whole datagram. -/
def parseRecords (msg : Bytes) (cursor : ℕ) : Option (List (ℕ × Bytes)) :=
  parseRecordsGo msg msg.length cursor

/-- Tail of `handleMessagePacket` after the ack was sent (part_000:411-433):
the HELLO branch (`seenHello` / length / version checks, then the hello
event) or the record loop.  HAZEL_VERSION is 0 (modelled from the spec:
`constants.ts` is not part of the sources; §8 scenario 1 accepts a HELLO
with version byte 0). -/
def helloOrRecords (st : MState) (msg : Bytes) (cursor : ℕ) : Option MState :=
  if msg.getD 0 0 = 8 then
    if st.seenHello = true ∨ msg.length < 4 then some (mDisconnect st true)
    else
      if msg.getD 3 0 ≠ 0 then some (mDisconnect { st with seenHello := true } true)
      else some { st with seenHello := true, helloEmits := st.helloEmits + 1 }
  else
    match parseRecords msg cursor with
    | none => none
    | some rs => some { st with msgEmits := st.msgEmits ++ rs }

/-- `handleMessagePacket(msg, ack)` (part_000:403-434): header-length guard,
then the ack is sent (mask computed against the pre-ack state), then the
HELLO branch or the record loop.  Returns `none` when a read throws out of
the message handler (only possible in the record loop). -/
def handleMessagePacketM (st : MState) (msg : Bytes) (ack : Bool) : Option MState :=
  if msg.length < (if ack then 3 else 1) then some (mDisconnect st true)
  else
    helloOrRecords (if ack then sendAckTo st (getU16 msg 1) else st) msg (if ack then 3 else 1)

/-- `handleMessage(msg)` (part_000:373-401): dispatch on the first byte
(`undefined` on an empty datagram matches no case).  Packet type values are
modelled from the spec §3 (`constants.ts` is not part of the sources):
NORMAL 0, RELIABLE 1, FRAGMENT 5, HELLO 8, DISCONNECT 9, ACKNOWLEDGEMENT 10,
PING 12. -/
def handleMessageM (st : MState) (msg : Bytes) : Option MState :=
  match msg.getD 0 256 with
  | 0 => handleMessagePacketM st msg false
  | 8 => handleMessagePacketM st msg true
  | 1 => handleMessagePacketM st msg true
  | 9 => some (emitClose st)
  | 10 => some (if 3 ≤ msg.length then handleAckM st (getU16 msg 1) else st)
  | 12 => some (if 3 ≤ msg.length then sendAckTo st (getU16 msg 1) else st)
  | _ => some st

/-- The events a connection reacts to: user calls, timer firings, inbound
datagrams, and clock advance. -/
inductive MEvent where
  | sendReliable (msgs : List (ℕ × Bytes))
  | userDisconnect (force : Bool)
  | tickRel (idx : ℕ)
  | tickPing
  | advance (d : ℕ)
  | inbound (msg : Bytes)
  deriving DecidableEq

/-- One step of the connection; `none` models an exception escaping the
`data` handler. -/
def mStep (st : MState) : MEvent → Option MState
  | .sendReliable msgs => some (mSendReliable st msgs)
  | .userDisconnect f => some (mDisconnect st f)
  | .tickRel idx => some (tickRelFn st idx)
  | .tickPing => some (tickPingFn st)
  | .advance d => some { st with time := st.time + d }
  | .inbound msg => handleMessageM st msg

/-- A fresh connection: all counters zero, empty tables, `lastPings`
initialised to five zeros. -/
def mInit : MState :=
  ⟨[], 0, [0, 0, 0, 0, 0], false, 0, false, 0, 0, 0, [], [], [], 0⟩

/-- Run a connection from a given state through a list of events. -/
def runFrom (st : MState) (evs : List MEvent) : Option MState :=
  List.foldlM mStep st evs

/-- Run a fresh connection through a list of events. -/
def mRun (evs : List MEvent) : Option MState := runFrom mInit evs

/-- Modelled from the spec: "set of recently observed inbound reliable
nonces" (§3, Connection record) — the code keeps no such set, so this
definition follows the spec's words: the nonces carried by the inbound
RELIABLE/HELLO datagrams delivered so far. -/
def specInboundSeen (evs : List MEvent) : List ℕ :=
  evs.filterMap fun e =>
    match e with
    | .inbound msg =>
      if (msg.getD 0 0 = 1 ∨ msg.getD 0 0 = 8) ∧ 3 ≤ msg.length then some (getU16 msg 1) else none
    | _ => none

/-- A single shifted bit tests as the index equality. -/
theorem testBit_one_shl (a j : ℕ) : (1 <<< a).testBit j = decide (a = j) := by
  rw [Nat.shiftLeft_eq, one_mul, Nat.testBit_two_pow]

/-- Bit `j` of the `sendAck` mask loop over any index list: it is set iff
already set in the accumulator, or `j` is visited and
`pendingAck.has(nonce - (j+1))` is false. -/
theorem ackMask_foldl_testBit (has : ℤ → Bool) (nonce : ℤ) :
    ∀ (L : List ℕ) (acc : ℕ) (j : ℕ),
      ((L.foldl (fun (pending t : ℕ) =>
          if has (nonce - ((t : ℤ) + 1)) then pending else pending ||| (1 <<< t)) acc).testBit j)
        = (acc.testBit j || (decide (j ∈ L) && !has (nonce - ((j : ℤ) + 1)))) := by
  intro L
  induction L with
  | nil =>
    intro acc j
    simp
  | cons a L ih =>
    intro acc j
    rw [List.foldl_cons]
    by_cases hh : has (nonce - ((a : ℤ) + 1))
    · rw [if_pos hh, ih]
      by_cases hj : j = a
      · subst hj
        simp [hh]
      · simp [hj, Ne.symm hj]
    · rw [if_neg hh, ih, Nat.testBit_lor, testBit_one_shl]
      by_cases hj : j = a
      · subst hj
        simp [hh]
      · simp [hj, Ne.symm hj]

/-- C1 (amended): for every `i ∈ [1, 8]`, bit `i-1` of the mask `sendAck`
transmits in the fourth ACK byte is 1 iff `nonce - i` is NOT a key of the
connection's `pendingAck` map — the outbound nonces awaiting
acknowledgement — at the moment the ack is computed.  (The code keeps no
set of inbound reliable nonces; see `ackMask_not_inbound_cex`.) -/
theorem ackMask_bit (has : ℤ → Bool) (nonce : ℤ) (i : ℕ) (h1 : 1 ≤ i) (h2 : i ≤ 8) :
    (ackMask has nonce).testBit (i - 1) = !has (nonce - (i : ℤ)) := by
  unfold ackMask
  rw [ackMask_foldl_testBit]
  have hmem : decide ((i - 1) ∈ List.range 8) = true := by
    simp only [List.mem_range, decide_eq_true_eq]
    omega
  rw [hmem, Nat.zero_testBit]
  simp only [Bool.false_or, Bool.true_and]
  rw [show nonce - (((i - 1 : ℕ) : ℤ) + 1) = nonce - (i : ℤ) by omega]

/-- Witness for `ackMask_bit` at the map `{1}`, nonce 2, `i = 1`. -/
theorem ackMask_bit_witness :
    (1 ≤ 1 ∧ 1 ≤ 8) ∧
    (ackMask (fun z => decide (z = 1)) 2).testBit (1 - 1) = !(decide ((2 - (1 : ℕ) : ℤ) = 1)) :=
  ⟨⟨le_refl 1, by norm_num⟩, ackMask_bit (fun z => decide (z = 1)) 2 1 (le_refl 1) (by norm_num)⟩

/-- Counterexample to C1 as stated.  Trace: the connection performs one
reliable send (nonce 1 goes into `pendingAck`, an OUTBOUND nonce), then an
inbound RELIABLE datagram with nonce N = 2 arrives.  No inbound reliable
nonce was seen before the ack is computed (the spec's inbound-seen set is
empty), so the claim requires mask bit 0 (i = 1, `N - 1 = 1` not
inbound-seen) to be 1; the emitted ACK is `[0x0A, 0, 2, 0xFE]`, whose mask
byte 254 has bit 0 = 0, because the code consults `pendingAck` (which holds
the outbound nonce 1) instead of an inbound-seen set. -/
theorem ackMask_not_inbound_cex :
    (mRun [.sendReliable [], .inbound [1, 0, 2]]).map (fun st => st.outbox) =
      some [[1, 0, 1], [10, 0, 2, 254]] ∧
    specInboundSeen [.sendReliable []] = [] ∧
    (254 : ℕ).testBit (1 - 1) = false ∧
    (specInboundSeen [MEvent.sendReliable []]).contains (2 - 1) = false := by
  exact ⟨by decide, by decide, by decide, by decide⟩

/-- `runFrom` splits over an appended event list. -/
theorem runFrom_append (st : MState) (l1 l2 : List MEvent) :
    runFrom st (l1 ++ l2) = (runFrom st l1).bind (fun s => runFrom s l2) := by
  unfold runFrom
  rw [List.foldlM_append]
  rfl

/-- C2 (amended): a reliable send whose ack never arrives passes the
identical datagram to the socket 11 times — the immediate send plus one per
300 ms interval firing while `attempts < 10` — and on the 11th firing
(`attempts === 10`) the promise is rejected and the connection is forcibly
closed.  Stated for any number `n ≥ 11` of interval firings. -/
theorem reliable_no_ack_eleven_sends (n : ℕ) (h : 11 ≤ n) :
    (mRun (.sendReliable [] :: List.replicate n (.tickRel 0))).map
        (fun st => (st.outbox.count [1, 0, 1], st.entries[0]?.map (fun e => e.status),
          st.closeEmits)) =
      some (11, some .rejected, 1) := by
  have key : ∀ m, 11 ≤ m →
      mRun (.sendReliable [] :: List.replicate m (.tickRel 0)) =
        mRun (.sendReliable [] :: List.replicate 11 (.tickRel 0)) := by
    intro m hm
    induction m, hm using Nat.le_induction with
    | base => rfl
    | succ m hm ih =>
      have hsplit : (MEvent.sendReliable [] :: List.replicate (m + 1) (MEvent.tickRel 0)) =
          (MEvent.sendReliable [] :: List.replicate m (MEvent.tickRel 0)) ++ [MEvent.tickRel 0] := by
        rw [List.replicate_succ']
        rfl
      unfold mRun at ih ⊢
      rw [hsplit, runFrom_append, ih]
      decide
  rw [key n h]
  decide

/-- Witness for `reliable_no_ack_eleven_sends` at `n = 11`. -/
theorem reliable_no_ack_eleven_sends_witness :
    11 ≤ 11 ∧
    (mRun (.sendReliable [] :: List.replicate 11 (.tickRel 0))).map
        (fun st => (st.outbox.count [1, 0, 1], st.entries[0]?.map (fun e => e.status),
          st.closeEmits)) =
      some (11, some .rejected, 1) :=
  ⟨le_refl 11, reliable_no_ack_eleven_sends 11 (le_refl 11)⟩

/-- Counterexample to C2 as stated: with no ack ever delivered, by the time
the promise is rejected the identical datagram `[0x01, 0, 1]` has been
passed to the socket 11 times, not 10 (the immediate `send()` plus ten
interval re-sends), after which the connection is forcibly closed. -/
theorem reliable_not_ten_sends_cex :
    (mRun (.sendReliable [] :: List.replicate 11 (.tickRel 0))).map
        (fun st => (st.outbox.count [1, 0, 1], st.entries[0]?.map (fun e => e.status),
          st.closeEmits, st.latch)) =
      some (11, some .rejected, 1, true) :=
  by decide


/-- `emit('close')` never touches `seenHello`. -/
theorem emitClose_seenHello (st : MState) : (emitClose st).seenHello = st.seenHello := by
  by_cases h : st.latch <;> simp [emitClose, h]

/-- `disconnect` never touches `seenHello`. -/
theorem mDisconnect_seenHello (st : MState) (f : Bool) :
    (mDisconnect st f).seenHello = st.seenHello := by
  by_cases h : st.latch <;> simp [mDisconnect, emitClose, h]

/-- `sendAck` never touches `seenHello`. -/
theorem sendAckTo_seenHello (st : MState) (n : ℕ) : (sendAckTo st n).seenHello = st.seenHello := rfl

/-- The retransmit tick never touches `seenHello`. -/
theorem tickRelFn_seenHello (st : MState) (idx : ℕ) :
    (tickRelFn st idx).seenHello = st.seenHello := by
  unfold tickRelFn
  split
  · rfl
  · split
    · split
      · rw [mDisconnect_seenHello]
      · rfl
    · rfl

/-- The ping tick never touches `seenHello`. -/
theorem tickPingFn_seenHello (st : MState) : (tickPingFn st).seenHello = st.seenHello := by
  unfold tickPingFn
  split
  · rfl
  · split
    · rw [mDisconnect_seenHello]
    · rfl

/-- The ACK handler never touches `seenHello`. -/
theorem handleAckM_seenHello (st : MState) (id : ℕ) :
    (handleAckM st id).seenHello = st.seenHello := by
  unfold handleAckM
  split <;> rfl

/-- The HELLO/record tail of the packet handler only ever raises `seenHello`. -/
theorem helloOrRecords_seenHello (st : MState) (msg : Bytes) (cursor : ℕ) (st' : MState)
    (h : helloOrRecords st msg cursor = some st') (hs : st.seenHello = true) :
    st'.seenHello = true := by
  unfold helloOrRecords at h
  by_cases h8 : msg.getD 0 0 = 8
  · rw [if_pos h8, if_pos (Or.inl hs)] at h
    rw [← Option.some.inj h, mDisconnect_seenHello]
    exact hs
  · rw [if_neg h8] at h
    cases hp : parseRecords msg cursor with
    | none =>
      rw [hp] at h
      exact Option.noConfusion h
    | some rs =>
      rw [hp] at h
      rw [← Option.some.inj h]
      exact hs

/-- `handleMessagePacket` only ever raises `seenHello`. -/
theorem handleMessagePacketM_seenHello (st : MState) (msg : Bytes) (ack : Bool) (st' : MState)
    (h : handleMessagePacketM st msg ack = some st') (hs : st.seenHello = true) :
    st'.seenHello = true := by
  unfold handleMessagePacketM at h
  by_cases hlen : msg.length < (if ack then 3 else 1)
  · rw [if_pos hlen] at h
    rw [← Option.some.inj h, mDisconnect_seenHello]
    exact hs
  · rw [if_neg hlen] at h
    refine helloOrRecords_seenHello _ msg _ st' h ?_
    by_cases hack : ack
    · simp [hack, sendAckTo_seenHello, hs]
    · simp [hack, hs]

/-- One step of the connection only ever raises `seenHello` (the flag is set
once and never cleared). -/
theorem mStep_seenHello_mono (st : MState) (e : MEvent) (st' : MState)
    (h : mStep st e = some st') (hs : st.seenHello = true) : st'.seenHello = true := by
  cases e with
  | sendReliable msgs =>
    rw [← Option.some.inj h]
    exact hs
  | userDisconnect f =>
    rw [← Option.some.inj h, mDisconnect_seenHello]
    exact hs
  | tickRel idx =>
    rw [← Option.some.inj h, tickRelFn_seenHello]
    exact hs
  | tickPing =>
    rw [← Option.some.inj h, tickPingFn_seenHello]
    exact hs
  | advance d =>
    rw [← Option.some.inj h]
    exact hs
  | inbound msg =>
    have h' : handleMessageM st msg = some st' := h
    clear h
    unfold handleMessageM at h'
    rename' h' => h
    split at h
    · exact handleMessagePacketM_seenHello st msg false st' h hs
    · exact handleMessagePacketM_seenHello st msg true st' h hs
    · exact handleMessagePacketM_seenHello st msg true st' h hs
    · rw [← Option.some.inj h, emitClose_seenHello]
      exact hs
    · rw [← Option.some.inj h]
      by_cases h3 : 3 ≤ msg.length
      · rw [if_pos h3, handleAckM_seenHello]
        exact hs
      · rw [if_neg h3]
        exact hs
    · rw [← Option.some.inj h]
      by_cases h3 : 3 ≤ msg.length
      · rw [if_pos h3, sendAckTo_seenHello]
        exact hs
      · rw [if_neg h3]
        exact hs
    · rw [← Option.some.inj h]
      exact hs

/-- C7: the `seenHello` flag is monotone — it transitions false→true at most
once and is never reset — and on the concrete two-HELLO trace (matching
version byte 0) the connection emits exactly one hello event, then is
force-closed upon the second HELLO (one close emission, cleanup ran). -/
theorem seenHello_once_two_hellos :
    (∀ (st : MState) (e : MEvent) (st' : MState),
        mStep st e = some st' → st.seenHello = true → st'.seenHello = true) ∧
    (mRun [.inbound [8, 0, 1, 0], .inbound [8, 0, 5, 0]]).map
        (fun st => (st.helloEmits, st.closeEmits, st.seenHello, st.latch)) =
      some (1, 1, true, true) :=
  ⟨mStep_seenHello_mono, by decide⟩

/-- Witness for `seenHello_once_two_hellos`: one monotonicity instance at a
concrete state with `seenHello = true` and a ping tick. -/
theorem seenHello_once_two_hellos_witness :
    mStep { mInit with seenHello := true } .tickPing =
      some (tickPingFn { mInit with seenHello := true }) ∧
    ({ mInit with seenHello := true } : MState).seenHello = true ∧
    (tickPingFn { mInit with seenHello := true }).seenHello = true :=
  ⟨rfl, rfl, seenHello_once_two_hellos.1 _ .tickPing _ rfl rfl⟩

/-- The one-shot behaviour of the `once('close')` cleanup, as a function of
the `(latch, cleanups)` pair. -/
def lcNext (p : Bool × ℕ) : Bool × ℕ := if p.1 then p else (true, p.2 + 1)

/-- `emit('close')` advances the latch/cleanup pair by exactly one
`lcNext` step. -/
theorem emitClose_lc (st : MState) :
    ((emitClose st).latch, (emitClose st).cleanups) = lcNext (st.latch, st.cleanups) := by
  by_cases h : st.latch <;> simp [emitClose, lcNext, h]

/-- `disconnect` advances the latch/cleanup pair by exactly one `lcNext`
step. -/
theorem mDisconnect_lc (st : MState) (f : Bool) :
    ((mDisconnect st f).latch, (mDisconnect st f).cleanups) = lcNext (st.latch, st.cleanups) := by
  by_cases h : st.latch <;> simp [mDisconnect, emitClose, lcNext, h]

/-- The retransmit tick leaves the latch/cleanup pair alone or fires one
close. -/
theorem tickRelFn_lc (st : MState) (idx : ℕ) :
    ((tickRelFn st idx).latch, (tickRelFn st idx).cleanups) = (st.latch, st.cleanups) ∨
    ((tickRelFn st idx).latch, (tickRelFn st idx).cleanups) = lcNext (st.latch, st.cleanups) := by
  unfold tickRelFn
  split
  · exact Or.inl rfl
  · split
    · split
      · exact Or.inr (mDisconnect_lc _ true)
      · exact Or.inl rfl
    · exact Or.inl rfl

/-- The ping tick leaves the latch/cleanup pair alone or fires one close. -/
theorem tickPingFn_lc (st : MState) :
    ((tickPingFn st).latch, (tickPingFn st).cleanups) = (st.latch, st.cleanups) ∨
    ((tickPingFn st).latch, (tickPingFn st).cleanups) = lcNext (st.latch, st.cleanups) := by
  unfold tickPingFn
  split
  · exact Or.inl rfl
  · split
    · exact Or.inr (mDisconnect_lc _ true)
    · exact Or.inl rfl

/-- The ACK handler never emits close. -/
theorem handleAckM_lc (st : MState) (id : ℕ) :
    ((handleAckM st id).latch, (handleAckM st id).cleanups) = (st.latch, st.cleanups) := by
  unfold handleAckM
  split <;> rfl

/-- The HELLO/record tail leaves the pair alone or fires one close. -/
theorem helloOrRecords_lc (st : MState) (msg : Bytes) (cursor : ℕ) (st' : MState)
    (h : helloOrRecords st msg cursor = some st') :
    (st'.latch, st'.cleanups) = (st.latch, st.cleanups) ∨
    (st'.latch, st'.cleanups) = lcNext (st.latch, st.cleanups) := by
  unfold helloOrRecords at h
  split at h
  · split at h
    · rw [← Option.some.inj h]
      exact Or.inr (mDisconnect_lc _ true)
    · split at h
      · rw [← Option.some.inj h]
        exact Or.inr (mDisconnect_lc _ true)
      · rw [← Option.some.inj h]
        exact Or.inl rfl
  · split at h
    · exact Option.noConfusion h
    · rw [← Option.some.inj h]
      exact Or.inl rfl

/-- The packet handler leaves the pair alone or fires one close. -/
theorem handleMessagePacketM_lc (st : MState) (msg : Bytes) (ack : Bool) (st' : MState)
    (h : handleMessagePacketM st msg ack = some st') :
    (st'.latch, st'.cleanups) = (st.latch, st.cleanups) ∨
    (st'.latch, st'.cleanups) = lcNext (st.latch, st.cleanups) := by
  unfold handleMessagePacketM at h
  by_cases hlen : msg.length < (if ack then 3 else 1)
  · rw [if_pos hlen] at h
    rw [← Option.some.inj h]
    exact Or.inr (mDisconnect_lc _ true)
  · rw [if_neg hlen] at h
    have h2 := helloOrRecords_lc _ msg _ st' h
    by_cases hack : ack
    · simpa [hack, sendAckTo] using h2
    · simpa [hack] using h2

/-- One step advances the latch/cleanup pair by at most one `lcNext`. -/
theorem mStep_lc (st : MState) (e : MEvent) (st' : MState) (h : mStep st e = some st') :
    (st'.latch, st'.cleanups) = (st.latch, st.cleanups) ∨
    (st'.latch, st'.cleanups) = lcNext (st.latch, st.cleanups) := by
  cases e with
  | sendReliable msgs =>
    rw [← Option.some.inj h]
    exact Or.inl rfl
  | userDisconnect f =>
    rw [← Option.some.inj h]
    exact Or.inr (mDisconnect_lc _ f)
  | tickRel idx =>
    rw [← Option.some.inj h]
    exact tickRelFn_lc st idx
  | tickPing =>
    rw [← Option.some.inj h]
    exact tickPingFn_lc st
  | advance d =>
    rw [← Option.some.inj h]
    exact Or.inl rfl
  | inbound msg =>
    have h' : handleMessageM st msg = some st' := h
    clear h
    unfold handleMessageM at h'
    rename' h' => h
    split at h
    · exact handleMessagePacketM_lc st msg false st' h
    · exact handleMessagePacketM_lc st msg true st' h
    · exact handleMessagePacketM_lc st msg true st' h
    · rw [← Option.some.inj h]
      exact Or.inr (emitClose_lc st)
    · rw [← Option.some.inj h]
      by_cases h3 : 3 ≤ msg.length
      · rw [if_pos h3, handleAckM_lc]
        exact Or.inl rfl
      · rw [if_neg h3]
        exact Or.inl rfl
    · rw [← Option.some.inj h]
      by_cases h3 : 3 ≤ msg.length
      · rw [if_pos h3]
        exact Or.inl rfl
      · rw [if_neg h3]
        exact Or.inl rfl
    · rw [← Option.some.inj h]
      exact Or.inl rfl

/-- The cleanup-count invariant: at most one cleanup ever, and none before
the latch is set. -/
theorem cleanups_invariant :
    ∀ (evs : List MEvent) (st st' : MState),
      st.cleanups ≤ 1 → (st.latch = false → st.cleanups = 0) →
      runFrom st evs = some st' →
      st'.cleanups ≤ 1 ∧ (st'.latch = false → st'.cleanups = 0) := by
  intro evs
  induction evs with
  | nil =>
    intro st st' h1 h2 hrun
    cases Option.some.inj hrun
    exact ⟨h1, h2⟩
  | cons e evs ih =>
    intro st st' h1 h2 hrun
    have hbind : (mStep st e).bind (fun s => runFrom s evs) = some st' := hrun
    cases hstep : mStep st e with
    | none =>
      rw [hstep] at hbind
      exact Option.noConfusion hbind
    | some s1 =>
      rw [hstep] at hbind
      have hs1 : s1.cleanups ≤ 1 ∧ (s1.latch = false → s1.cleanups = 0) := by
        rcases mStep_lc st e s1 hstep with hlc | hlc
        · have ha : s1.latch = st.latch := congrArg Prod.fst hlc
          have hb : s1.cleanups = st.cleanups := congrArg Prod.snd hlc
          rw [ha, hb]
          exact ⟨h1, h2⟩
        · have ha : s1.latch = (lcNext (st.latch, st.cleanups)).1 := congrArg Prod.fst hlc
          have hb : s1.cleanups = (lcNext (st.latch, st.cleanups)).2 := congrArg Prod.snd hlc
          unfold lcNext at ha hb
          by_cases hl : st.latch = true
          · rw [if_pos hl] at ha hb
            have ha' : s1.latch = st.latch := ha
            have hb' : s1.cleanups = st.cleanups := hb
            rw [ha', hb']
            exact ⟨h1, h2⟩
          · rw [if_neg hl] at ha hb
            have ha' : s1.latch = true := ha
            have hb' : s1.cleanups = st.cleanups + 1 := hb
            rw [Bool.not_eq_true] at hl
            have hz := h2 hl
            constructor
            · omega
            · intro hf
              simp [ha'] at hf
      exact ih s1 st' hs1.1 hs1.2 hbind

/-- `updEntry` keeps the table length. -/
theorem updEntry_length (es : List RelEntry) (idx : ℕ) (f : RelEntry → RelEntry) :
    (updEntry es idx f).length = es.length := by
  induction es generalizing idx with
  | nil => rfl
  | cons e es ih =>
    cases idx with
    | zero => rfl
    | succ j => simpa [updEntry] using ih j

/-- Pointwise view of `updEntry`. -/
theorem updEntry_getElem? (es : List RelEntry) (idx : ℕ) (f : RelEntry → RelEntry) (j : ℕ) :
    (updEntry es idx f)[j]? = if j = idx then Option.map f es[j]? else es[j]? := by
  induction es generalizing idx j with
  | nil =>
    cases idx <;> simp [updEntry]
  | cons e es ih =>
    cases idx with
    | zero =>
      cases j with
      | zero => simp [updEntry]
      | succ k => simp [updEntry]
    | succ i =>
      cases j with
      | zero => simp [updEntry]
      | succ k => simpa [updEntry] using ih i k

/-- Membership after `Map.set`: an old pair or the new one. -/
theorem mapSet_mem (m : List (ℕ × AckVal)) (k : ℕ) (v : AckVal) (p : ℕ × AckVal)
    (h : p ∈ mapSet m k v) : p ∈ m ∨ p = (k, v) := by
  unfold mapSet at h
  split at h
  · rw [List.mem_map] at h
    obtain ⟨q, hq, hfq⟩ := h
    by_cases hqk : q.1 == k
    · rw [if_pos hqk] at hfq
      exact Or.inr hfq.symm
    · rw [if_neg hqk] at hfq
      exact Or.inl (hfq ▸ hq)
  · rw [List.mem_append] at h
    rcases h with h | h
    · exact Or.inl h
    · exact Or.inr (List.mem_singleton.mp h)

/-- Membership after `Map.delete` implies prior membership. -/
theorem mapDelete_mem (m : List (ℕ × AckVal)) (k : ℕ) (p : ℕ × AckVal)
    (h : p ∈ mapDelete m k) : p ∈ m :=
  List.mem_of_mem_filter h

/-- A found value comes from some pair of the map. -/
theorem mapGet_mem (m : List (ℕ × AckVal)) (k : ℕ) (v : AckVal) (h : mapGet m k = some v) :
    ∃ p ∈ m, p.2 = v := by
  unfold mapGet at h
  rw [Option.map_eq_some'] at h
  obtain ⟨p, hfind, hv⟩ := h
  exact ⟨p, List.mem_of_find?_eq_some hfind, hv⟩

/-- The part of the connection state that decides whether reliable send `i`
can still be resolved: the entry exists, it is not resolved, and no
`pendingAck` value points at it. -/
def relUntouched (st : MState) (i : ℕ) : Prop :=
  i < st.entries.length ∧
  st.entries[i]?.map (fun e => e.status) ≠ some .resolved ∧
  ∀ p ∈ st.pendingAck, p.2 ≠ AckVal.rel i

/-- `emit('close')` cannot resolve a reliable promise: it only clears the
map. -/
theorem relUntouched_emitClose (st : MState) (i : ℕ) (h : relUntouched st i) :
    relUntouched (emitClose st) i := by
  obtain ⟨h1, h2, h3⟩ := h
  by_cases hl : st.latch = true
  · exact ⟨by simpa [emitClose, hl] using h1, by simpa [emitClose, hl] using h2,
      by simpa [emitClose, hl] using h3⟩
  · refine ⟨by simpa [emitClose, hl] using h1, by simpa [emitClose, hl] using h2, ?_⟩
    intro p hp
    simp [emitClose, hl] at hp

/-- `disconnect` cannot resolve a reliable promise. -/
theorem relUntouched_mDisconnect (st : MState) (i : ℕ) (f : Bool) (h : relUntouched st i) :
    relUntouched (mDisconnect st f) i := by
  obtain ⟨a, b, c⟩ := relUntouched_emitClose st i h
  exact ⟨a, b, c⟩

/-- A later `sendReliable` registers a FRESH index, never index `i` again. -/
theorem relUntouched_mSendReliable (st : MState) (i : ℕ) (msgs : List (ℕ × Bytes))
    (h : relUntouched st i) : relUntouched (mSendReliable st msgs) i := by
  obtain ⟨h1, h2, h3⟩ := h
  refine ⟨?_, ?_, ?_⟩
  · show i < (st.entries ++ [_]).length
    simp only [List.length_append, List.length_cons, List.length_nil]
    omega
  · show (st.entries ++ [_])[i]?.map (fun e => e.status) ≠ some .resolved
    rw [List.getElem?_append, if_pos h1]
    exact h2
  · intro p hp
    rcases mapSet_mem _ _ _ p hp with hmem | rfl
    · exact h3 p hmem
    · simp only [ne_eq, AckVal.rel.injEq]
      omega

/-- The retransmit tick can reject but never resolve. -/
theorem relUntouched_tickRelFn (st : MState) (i idx : ℕ) (h : relUntouched st i) :
    relUntouched (tickRelFn st idx) i := by
  obtain ⟨h1, h2, h3⟩ := h
  unfold tickRelFn
  split
  · exact ⟨h1, h2, h3⟩
  · split
    · split
      · apply relUntouched_mDisconnect
        refine ⟨?_, ?_, h3⟩
        · show i < (updEntry st.entries idx _).length
          rw [updEntry_length]
          exact h1
        · show (updEntry st.entries idx _)[i]?.map (fun e => e.status) ≠ some .resolved
          rw [updEntry_getElem?]
          by_cases hij : i = idx
          · rw [if_pos hij]
            cases st.entries[i]? with
            | none => simp
            | some e => simp
          · rw [if_neg hij]
            exact h2
      · refine ⟨?_, ?_, h3⟩
        · show i < (updEntry st.entries idx _).length
          rw [updEntry_length]
          exact h1
        · show (updEntry st.entries idx _)[i]?.map (fun e => e.status) ≠ some .resolved
          rw [updEntry_getElem?]
          by_cases hij : i = idx
          · rw [if_pos hij]
            cases hei : st.entries[i]? with
            | none => simp
            | some e =>
              rw [hei] at h2
              simpa using h2
          · rw [if_neg hij]
            exact h2
    · exact ⟨h1, h2, h3⟩

/-- The ping tick registers only `ping` completions. -/
theorem relUntouched_tickPingFn (st : MState) (i : ℕ) (h : relUntouched st i) :
    relUntouched (tickPingFn st) i := by
  obtain ⟨h1, h2, h3⟩ := h
  unfold tickPingFn
  split
  · exact ⟨h1, h2, h3⟩
  · split
    · exact relUntouched_mDisconnect _ _ _ ⟨h1, h2, h3⟩
    · refine ⟨h1, h2, ?_⟩
      intro p hp
      rcases mapSet_mem _ _ _ p hp with hmem | rfl
      · exact h3 p hmem
      · simp

/-- An inbound ACK can only resolve an entry the map still points at; it
never touches an unmapped entry `i`. -/
theorem relUntouched_handleAckM (st : MState) (i id : ℕ) (h : relUntouched st i) :
    relUntouched (handleAckM st id) i := by
  obtain ⟨h1, h2, h3⟩ := h
  unfold handleAckM
  split
  · exact ⟨h1, h2, h3⟩
  · next idx heq =>
    obtain ⟨p, hpmem, hpv⟩ := mapGet_mem _ _ _ heq
    have hidx : idx ≠ i := by
      intro hcontra
      exact h3 p hpmem (by rw [hpv, hcontra])
    refine ⟨?_, ?_, ?_⟩
    · show i < (updEntry st.entries idx _).length
      rw [updEntry_length]
      exact h1
    · show (updEntry st.entries idx _)[i]?.map (fun e => e.status) ≠ some .resolved
      rw [updEntry_getElem?, if_neg (fun hh => hidx hh.symm)]
      exact h2
    · intro p hp
      exact h3 p (mapDelete_mem _ _ p hp)
  · refine ⟨h1, h2, ?_⟩
    intro p hp
    exact h3 p (mapDelete_mem _ _ p hp)

/-- The HELLO/record tail never resolves a reliable promise. -/
theorem relUntouched_helloOrRecords (st : MState) (msg : Bytes) (cursor : ℕ) (st' : MState)
    (i : ℕ) (h : helloOrRecords st msg cursor = some st') (hr : relUntouched st i) :
    relUntouched st' i := by
  unfold helloOrRecords at h
  split at h
  · split at h
    · rw [← Option.some.inj h]
      exact relUntouched_mDisconnect _ _ _ hr
    · split at h
      · rw [← Option.some.inj h]
        apply relUntouched_mDisconnect
        exact ⟨hr.1, hr.2.1, hr.2.2⟩
      · rw [← Option.some.inj h]
        exact ⟨hr.1, hr.2.1, hr.2.2⟩
  · split at h
    · exact Option.noConfusion h
    · rw [← Option.some.inj h]
      exact ⟨hr.1, hr.2.1, hr.2.2⟩

/-- The packet handler never resolves a reliable promise. -/
theorem relUntouched_handleMessagePacketM (st : MState) (msg : Bytes) (ack : Bool) (st' : MState)
    (i : ℕ) (h : handleMessagePacketM st msg ack = some st') (hr : relUntouched st i) :
    relUntouched st' i := by
  unfold handleMessagePacketM at h
  by_cases hlen : msg.length < (if ack then 3 else 1)
  · rw [if_pos hlen] at h
    rw [← Option.some.inj h]
    exact relUntouched_mDisconnect _ _ _ hr
  · rw [if_neg hlen] at h
    refine relUntouched_helloOrRecords _ msg _ st' i h ?_
    by_cases hack : ack
    · rw [if_pos hack]
      exact ⟨hr.1, hr.2.1, hr.2.2⟩
    · rw [if_neg hack]
      exact hr

/-- No single step can resolve an unmapped pending reliable promise. -/
theorem mStep_relUntouched (st : MState) (e : MEvent) (st' : MState) (i : ℕ)
    (h : mStep st e = some st') (hr : relUntouched st i) : relUntouched st' i := by
  cases e with
  | sendReliable msgs =>
    rw [← Option.some.inj h]
    exact relUntouched_mSendReliable st i msgs hr
  | userDisconnect f =>
    rw [← Option.some.inj h]
    exact relUntouched_mDisconnect st i f hr
  | tickRel idx =>
    rw [← Option.some.inj h]
    exact relUntouched_tickRelFn st i idx hr
  | tickPing =>
    rw [← Option.some.inj h]
    exact relUntouched_tickPingFn st i hr
  | advance d =>
    rw [← Option.some.inj h]
    exact ⟨hr.1, hr.2.1, hr.2.2⟩
  | inbound msg =>
    have h' : handleMessageM st msg = some st' := h
    clear h
    unfold handleMessageM at h'
    rename' h' => h
    split at h
    · exact relUntouched_handleMessagePacketM st msg false st' i h hr
    · exact relUntouched_handleMessagePacketM st msg true st' i h hr
    · exact relUntouched_handleMessagePacketM st msg true st' i h hr
    · rw [← Option.some.inj h]
      exact relUntouched_emitClose st i hr
    · rw [← Option.some.inj h]
      by_cases h3 : 3 ≤ msg.length
      · rw [if_pos h3]
        exact relUntouched_handleAckM st i _ hr
      · rw [if_neg h3]
        exact hr
    · rw [← Option.some.inj h]
      by_cases h3 : 3 ≤ msg.length
      · rw [if_pos h3]
        exact ⟨hr.1, hr.2.1, hr.2.2⟩
      · rw [if_neg h3]
        exact hr
    · rw [← Option.some.inj h]
      exact hr

/-- Over any event sequence, an unmapped, unresolved reliable promise stays
unresolved. -/
theorem runFrom_relUntouched :
    ∀ (evs : List MEvent) (st st' : MState) (i : ℕ),
      relUntouched st i → runFrom st evs = some st' → relUntouched st' i := by
  intro evs
  induction evs with
  | nil =>
    intro st st' i hr hrun
    cases Option.some.inj hrun
    exact hr
  | cons e evs ih =>
    intro st st' i hr hrun
    have hbind : (mStep st e).bind (fun s => runFrom s evs) = some st' := hrun
    cases hstep : mStep st e with
    | none =>
      rw [hstep] at hbind
      exact Option.noConfusion hbind
    | some s1 =>
      rw [hstep] at hbind
      exact ih s1 st' i (mStep_relUntouched st e s1 i hstep hr) hbind

/-- `emit('close')` leaves the reliable-send table untouched. -/
theorem emitClose_entries (st : MState) : (emitClose st).entries = st.entries := by
  by_cases h : st.latch <;> simp [emitClose, h]

/-- `disconnect` leaves the reliable-send table untouched. -/
theorem mDisconnect_entries (st : MState) (f : Bool) :
    (mDisconnect st f).entries = st.entries := by
  by_cases h : st.latch <;> simp [mDisconnect, emitClose, h]

/-- The retransmit tick at `attempts === 10`: reject and force-disconnect. -/
theorem tickRelFn_eq_reject (st : MState) (i : ℕ) (e : RelEntry)
    (he : st.entries[i]? = some e) (hst : e.status = .pending) (ha : e.attempts = 10) :
    tickRelFn st i =
      mDisconnect
        { st with entries := updEntry st.entries i (fun x => { x with status := .rejected }) }
        true := by
  unfold tickRelFn
  rw [he]
  simp [hst, ha]

/-- The retransmit tick below the cap: re-send the identical datagram. -/
theorem tickRelFn_eq_resend (st : MState) (i : ℕ) (e : RelEntry)
    (he : st.entries[i]? = some e) (hst : e.status = .pending) (ha : e.attempts ≠ 10) :
    tickRelFn st i =
      { st with
          outbox := st.outbox ++ [e.buf],
          entries := updEntry st.entries i (fun x => { x with attempts := x.attempts + 1 }) } := by
  unfold tickRelFn
  rw [he]
  simp [hst, ha]

/-- A pending entry with `attempts + k = 10` is rejected after `k + 1` more
firings of its retransmit interval. -/
theorem tickRel_iterate_rejects :
    ∀ (k : ℕ) (st : MState) (i : ℕ) (e : RelEntry),
      st.entries[i]? = some e → e.status = .pending → e.attempts + k = 10 →
      (((fun s => tickRelFn s i)^[k + 1]) st).entries[i]?.map (fun x => x.status) =
        some .rejected := by
  intro k
  induction k with
  | zero =>
    intro st i e he hst ha
    rw [Function.iterate_one]
    rw [tickRelFn_eq_reject st i e he hst (by omega)]
    rw [mDisconnect_entries]
    show (updEntry st.entries i _)[i]?.map (fun x => x.status) = some .rejected
    rw [updEntry_getElem?, if_pos rfl, he]
    rfl
  | succ k ih =>
    intro st i e he hst ha
    rw [Function.iterate_succ_apply]
    show (((fun s => tickRelFn s i)^[k + 1]) (tickRelFn st i)).entries[i]?.map
        (fun x => x.status) = some .rejected
    rw [tickRelFn_eq_resend st i e he hst (by omega)]
    refine ih _ i { e with attempts := e.attempts + 1 } ?_ hst
      (by show e.attempts + 1 + k = 10; omega)
    show (updEntry st.entries i _)[i]? = some _
    rw [updEntry_getElem?, if_pos rfl, he]
    rfl

/-- Running `k` firings of entry `i`'s interval is iterating `tickRelFn`. -/
theorem runFrom_replicate_tickRel (i : ℕ) :
    ∀ (k : ℕ) (st : MState),
      runFrom st (List.replicate k (.tickRel i)) = some (((fun s => tickRelFn s i)^[k]) st) := by
  intro k
  induction k with
  | zero =>
    intro st
    rfl
  | succ k ih =>
    intro st
    rw [List.replicate_succ]
    have hstep : runFrom st (MEvent.tickRel i :: List.replicate k (MEvent.tickRel i)) =
        runFrom (tickRelFn st i) (List.replicate k (MEvent.tickRel i)) := rfl
    rw [hstep, ih, Function.iterate_succ_apply]

/-- C3 (amended).  (1) The internal close cleanup — clearing the ping timer
and the `pendingAck` map — runs at most once per connection, over every
event sequence; the close EVENT itself is re-emitted by every close trigger
(see `close_emitted_twice_cex`).  (2) Once a pending reliable send is no
longer referenced by `pendingAck` (which is exactly the situation of every
pending send after the close cleanup empties the map), no later events can
ever resolve it.  (3) Such a pending send with `attempts + k = 10` is
rejected after `k + 1` further firings of its 300 ms retransmit interval,
which close does not cancel. -/
theorem close_cleanup_once_pending_reject :
    (∀ (evs : List MEvent) (st : MState), mRun evs = some st → st.cleanups ≤ 1) ∧
    (∀ (st : MState) (i : ℕ) (evs : List MEvent) (st' : MState),
        relUntouched st i → runFrom st evs = some st' →
        st'.entries[i]?.map (fun e => e.status) ≠ some .resolved) ∧
    (∀ (st : MState) (i : ℕ) (e : RelEntry) (k : ℕ),
        st.entries[i]? = some e → e.status = .pending → e.attempts + k = 10 →
        ∃ st' : MState, runFrom st (List.replicate (k + 1) (.tickRel i)) = some st' ∧
          st'.entries[i]?.map (fun x => x.status) = some .rejected) := by
  refine ⟨?_, ?_, ?_⟩
  · intro evs st hrun
    exact (cleanups_invariant evs mInit st (by decide) (fun _ => rfl) hrun).1
  · intro st i evs st' hr hrun
    exact (runFrom_relUntouched evs st st' i hr hrun).2.1
  · intro st i e k he hst ha
    exact ⟨_, runFrom_replicate_tickRel i (k + 1) st,
      tickRel_iterate_rejects k st i e he hst ha⟩

/-- Witness for `close_cleanup_once_pending_reject`: the empty run for
part (1), and one retransmit firing of a pending entry at the attempt cap
for part (3). -/
theorem close_cleanup_once_pending_reject_witness :
    mInit.cleanups ≤ 1 ∧
    ∃ st' : MState,
      runFrom { mInit with entries := [⟨1, [1, 0, 1], 10, .pending⟩] }
          (List.replicate (0 + 1) (.tickRel 0)) = some st' ∧
        st'.entries[0]?.map (fun x => x.status) = some .rejected :=
  ⟨close_cleanup_once_pending_reject.1 [] mInit rfl,
   close_cleanup_once_pending_reject.2.2
     { mInit with entries := [⟨1, [1, 0, 1], 10, .pending⟩] } 0
     ⟨1, [1, 0, 1], 10, .pending⟩ 0 rfl rfl rfl⟩

/-- Counterexample to C3 as stated: two `disconnect` calls on the same
connection emit the close event twice (the `once('close')` cleanup runs only
once, but each call reaches `emit('close')`). -/
theorem close_emitted_twice_cex :
    (mRun [.userDisconnect false, .userDisconnect false]).map
        (fun st => (st.closeEmits, st.cleanups)) = some (2, 1) :=
  by decide

/-- Fuel irrelevance for the record loop: any fuel covering the remaining
bytes (each iteration consumes at least 3) computes the same result. -/
theorem parseRecordsGo_fuel (msg : Bytes) :
    ∀ f₁ f₂ cursor, msg.length ≤ f₁ + cursor → msg.length ≤ f₂ + cursor →
      parseRecordsGo msg f₁ cursor = parseRecordsGo msg f₂ cursor := by
  intro f₁
  induction f₁ with
  | zero =>
    intro f₂ cursor h1 h2
    have hc : ¬ cursor < msg.length := by omega
    cases f₂ with
    | zero => rfl
    | succ g =>
      show (if cursor < msg.length then none else some []) = _
      rw [if_neg hc]
      conv_rhs => rw [parseRecordsGo]
      rw [if_neg hc]
  | succ f ih =>
    intro f₂ cursor h1 h2
    cases f₂ with
    | zero =>
      have hc : ¬ cursor < msg.length := by omega
      show _ = (if cursor < msg.length then none else some [])
      rw [if_neg hc]
      conv_lhs => rw [parseRecordsGo]
      rw [if_neg hc]
    | succ g =>
      conv_lhs => rw [parseRecordsGo]
      conv_rhs => rw [parseRecordsGo]
      by_cases hc : cursor < msg.length
      · rw [if_pos hc, if_pos hc]
        cases hr : readHazelMessage msg cursor with
        | error e => rfl
        | ok td =>
          obtain ⟨tag, data⟩ := td
          show Option.map (fun rs => (tag, data) :: rs)
              (parseRecordsGo msg f (cursor + 3 + data.length)) =
            Option.map (fun rs => (tag, data) :: rs)
              (parseRecordsGo msg g (cursor + 3 + data.length))
          rw [ih g (cursor + 3 + data.length) (by omega) (by omega)]
      · rw [if_neg hc, if_neg hc]
